import Mathlib

/-!
Verification development for the SpiNNFrontEndCommon routing-table
compression subsystem (C sources under `c_common/`).  Each C function used
by a claim is embedded as an executable Lean definition operating on `Nat`
values (machine `uint32_t` becomes a `Nat` below `2 ^ 32`; bitwise `~x` on a
32-bit word becomes `Nat.xor x 4294967295`).  Tables are lists of entries;
in-place mutation is threaded as explicit state.
-/

set_option maxRecDepth 4000

/-- The all-ones 32-bit word `0xFFFFFFFF`; `~x` on `uint32_t` is `xor` with it. -/
def u32max : Nat := 4294967295

/-- Bitwise complement of a 32-bit word. -/
def compl32 (x : Nat) : Nat := x ^^^ u32max

/-- From `models/minimise/src/routing_table.h`: `keymask_t` is a `(key, mask)`
pair of 32-bit words. -/
structure keymask_t where
  key : Nat
  mask : Nat
deriving DecidableEq, Repr

/-- From `routing_table.h` (`keymask_get_xs`): `~key & ~mask`, the wildcard
positions of a keymask. -/
def keymask_get_xs (km : keymask_t) : Nat :=
  compl32 km.key &&& compl32 km.mask

/-- From `routing_table.h` (`keymask_intersect`):
`(a.key & b.mask) == (b.key & a.mask)`. -/
def keymask_intersect (a b : keymask_t) : Bool :=
  (a.key &&& b.mask) == (b.key &&& a.mask)

/-- From `routing_table.h` (`keymask_merge`):
`new_xs = ~(a.key ^ b.key); c.mask = a.mask & b.mask & new_xs;
c.key = (a.key | b.key) & c.mask`. -/
def keymask_merge (a b : keymask_t) : keymask_t :=
  { key := (a.key ||| b.key) &&& (a.mask &&& b.mask &&& compl32 (a.key ^^^ b.key)),
    mask := a.mask &&& b.mask &&& compl32 (a.key ^^^ b.key) }

/-- Spec glossary: a keymask matches an address `a` iff `a & mask == key & mask`. -/
def keymask_match (km : keymask_t) (a : Nat) : Bool :=
  (a &&& km.mask) == (km.key &&& km.mask)

theorem testBit_u32max (i : Nat) : Nat.testBit u32max i = decide (i < 32) := by
  have h : u32max = 2 ^ 32 - 1 := by norm_num [u32max]
  rw [h, Nat.testBit_two_pow_sub_one]

theorem bool_xs_superset (p q r s : Bool) :
    ((!p && !q || !r && !s) ||
        !((p || r) && (q && s && !(Bool.xor p r))) && !(q && s && !(Bool.xor p r))) =
      (!((p || r) && (q && s && !(Bool.xor p r))) && !(q && s && !(Bool.xor p r))) := by
  cases p <;> cases q <;> cases r <;> cases s <;> rfl

/-- C3: merging two keymasks only adds wildcards: every wildcard position of
`a` or of `b` is a wildcard position of `keymask_merge a b`. -/
theorem keymask_merge_adds_wildcards (a b : keymask_t)
    (ha : a.key < 2 ^ 32) (hb : b.key < 2 ^ 32) :
    (keymask_get_xs a ||| keymask_get_xs b) ||| keymask_get_xs (keymask_merge a b) =
      keymask_get_xs (keymask_merge a b) := by
  apply Nat.eq_of_testBit_eq
  intro i
  by_cases hi : i < 32
  · have hd : Nat.testBit u32max i = true := by
      rw [testBit_u32max]; exact decide_eq_true hi
    simp only [keymask_get_xs, keymask_merge, compl32, Nat.testBit_lor,
      Nat.testBit_land, Nat.testBit_xor, hd, Bool.xor_true]
    exact bool_xs_superset (a.key.testBit i) (a.mask.testBit i)
      (b.key.testBit i) (b.mask.testBit i)
  · have h32 : (2 : Nat) ^ 32 ≤ 2 ^ i := Nat.pow_le_pow_right (by norm_num)
      (Nat.le_of_not_lt hi)
    have hd : Nat.testBit u32max i = false := by
      rw [testBit_u32max]; exact decide_eq_false hi
    have hka : a.key.testBit i = false :=
      Nat.testBit_lt_two_pow (Nat.lt_of_lt_of_le ha h32)
    have hkb : b.key.testBit i = false :=
      Nat.testBit_lt_two_pow (Nat.lt_of_lt_of_le hb h32)
    simp only [keymask_get_xs, keymask_merge, compl32, Nat.testBit_lor,
      Nat.testBit_land, Nat.testBit_xor, hd, Bool.xor_false, hka, hkb]
    simp

/-- Witness for C3 at a concrete pair of keymasks. -/
theorem keymask_merge_adds_wildcards_witness :
    (keymask_get_xs ⟨3, 4294967288⟩ ||| keymask_get_xs ⟨5, 4294967288⟩) |||
        keymask_get_xs (keymask_merge ⟨3, 4294967288⟩ ⟨5, 4294967288⟩) =
      keymask_get_xs (keymask_merge ⟨3, 4294967288⟩ ⟨5, 4294967288⟩) :=
  keymask_merge_adds_wildcards ⟨3, 4294967288⟩ ⟨5, 4294967288⟩
    (by norm_num) (by norm_num)

/-- From `compressor_includes/bit_set.h`: a bit set with a member count, a
word count, a capacity in elements and the backing words (`_data`, here a
list of 32-bit words). -/
structure bit_set_t where
  count : Nat
  n_words : Nat
  n_elements : Nat
  _data : List Nat
deriving DecidableEq, Repr

/-- From `bit_set.h` (`bit_set_init`, successful-malloc path): `n_words` is
`length / 32`, plus one when `length % 32` is nonzero; the data words are
zeroed and the count reset. -/
def bit_set_init (length : Nat) : bit_set_t :=
  { count := 0,
    n_words := length / 32 + (if length % 32 = 0 then 0 else 1),
    n_elements := length,
    _data := List.replicate (length / 32 + (if length % 32 = 0 then 0 else 1)) 0 }

/-- From `bit_set.h` (`bit_set_add`): guard `n_elements <= i`, then set bit
`i & 31` of word `i / 32` and bump the count. -/
def bit_set_add (b : bit_set_t) (i : Nat) : Bool × bit_set_t :=
  if b.n_elements ≤ i then (false, b)
  else
    (true,
      { b with
        _data := b._data.set (i / 32) (b._data.getD (i / 32) 0 ||| 2 ^ (i % 32)),
        count := b.count + 1 })

/-- From `bit_set.h` (`bit_set_contains`): guard `n_elements <= i`, then test
bit `i & 31` of word `i / 32`. -/
def bit_set_contains (b : bit_set_t) (i : Nat) : Bool :=
  if b.n_elements ≤ i then false
  else (b._data.getD (i / 32) 0 &&& 2 ^ (i % 32)) != 0

/-- From `bit_set.h` (`bit_set_remove`): if `bit_set_contains` fails return
false, else clear bit `i & 0x1f` of word `i >> 5` and decrement the count. -/
def bit_set_remove (b : bit_set_t) (i : Nat) : Bool × bit_set_t :=
  if bit_set_contains b i then
    (true,
      { b with
        _data := b._data.set (i / 32) (b._data.getD (i / 32) 0 &&& compl32 (2 ^ (i % 32))),
        count := b.count - 1 })
  else (false, b)

/-- C10: for an index at or above the capacity, `bit_set_add`,
`bit_set_contains` and `bit_set_remove` all return false and leave the set
unchanged, and for an `init`-built set every in-range index addresses a word
below `n_words`. -/
theorem bit_set_out_of_range_safe (b : bit_set_t) (i : Nat)
    (h : b.n_elements ≤ i) :
    bit_set_add b i = (false, b) ∧ bit_set_contains b i = false ∧
      bit_set_remove b i = (false, b) ∧
      ∀ L j : Nat, j < (bit_set_init L).n_elements → j / 32 < (bit_set_init L).n_words := by
  have hc : bit_set_contains b i = false := by
    simp [bit_set_contains, h]
  refine ⟨by simp [bit_set_add, h], hc, by simp [bit_set_remove, hc], ?_⟩
  intro L j hj
  simp only [bit_set_init] at hj ⊢
  rcases Nat.eq_zero_or_pos (L % 32) with h0 | h0
  · have hdvd : 32 ∣ L := Nat.dvd_of_mod_eq_zero h0
    have := Nat.div_lt_div_of_lt_of_dvd hdvd hj
    simpa [h0] using this
  · have : j / 32 ≤ L / 32 := Nat.div_le_div_right (Nat.le_of_lt hj)
    have h1 : (if L % 32 = 0 then 0 else 1) = 1 := by
      simp [Nat.pos_iff_ne_zero.mp h0]
    omega

/-- Witness for C10 at a concrete out-of-range index. -/
theorem bit_set_out_of_range_safe_witness :
    bit_set_add (bit_set_init 40) 40 = (false, bit_set_init 40) ∧
      bit_set_contains (bit_set_init 40) 40 = false ∧
      bit_set_remove (bit_set_init 40) 40 = (false, bit_set_init 40) ∧
      ∀ L j : Nat, j < (bit_set_init L).n_elements → j / 32 < (bit_set_init L).n_words :=
  bit_set_out_of_range_safe (bit_set_init 40) 40 (by decide)

/-- From `routing_table.h` (`entry_t`): a keymask, a route word and a source
word. -/
structure entry_t where
  key_mask : keymask_t
  route : Nat
  source : Nat
deriving DecidableEq, Repr

/-- Default entry used for out-of-range reads (the C reads raw memory there;
no claim's run performs such a read). -/
def entry_default : entry_t := { key_mask := ⟨0, 0⟩, route := 0, source := 0 }

/-- From `pair_minimize.h` (`MAX_NUM_ROUTES`, also the value of
`rtr_alloc_max()`, the hardware capacity the spec gives as 1023). -/
def MAX_NUM_ROUTES : Nat := 1023

/-- From `pair_minimize.h` (`merge`): merged keymask, the first entry's
route, and the common source or 0. -/
def merge (entry1 entry2 : entry_t) : entry_t :=
  { key_mask := keymask_merge entry1.key_mask entry2.key_mask,
    route := entry1.route,
    source := if entry1.source == entry2.source then entry1.source else 0 }

/-- From `pair_minimize.h` (`update_frequency`), with the parallel arrays
`routes` / `routes_frequency` embedded as one list of `(route, frequency)`
pairs: a route already present has its frequency bumped; a new route is
appended with frequency 1, and the call fails when the new count reaches
`MAX_NUM_ROUTES` (the C checks `routes_count >= MAX_NUM_ROUTES` after the
increment). -/
def incr_route_frequency (route : Nat) : List (Nat × Nat) → List (Nat × Nat)
  | [] => []
  | (r, f) :: rest =>
    if r = route then (r, f + 1) :: rest else (r, f) :: incr_route_frequency route rest

def update_frequency (route : Nat) (rf : List (Nat × Nat)) : Option (List (Nat × Nat)) :=
  if route ∈ rf.map Prod.fst then some (incr_route_frequency route rf)
  else if MAX_NUM_ROUTES ≤ rf.length + 1 then none
  else some (rf ++ [(route, 1)])

/-- The histogram loop of `minimise_run` (lines 276-282): fold
`update_frequency` over the table, starting from `routes_count = 0`. -/
def histogram : List entry_t → List (Nat × Nat) → Option (List (Nat × Nat))
  | [], rf => some rf
  | e :: es, rf =>
    match update_frequency e.route rf with
    | none => none
    | some rf2 => histogram es rf2

/-- From `pair_minimize.h` (`sort_routes`): stable insertion sort of the
route/frequency pairs, ascending by frequency (an element moves left past
exactly the entries with strictly greater frequency). -/
def insert_route (p : Nat × Nat) : List (Nat × Nat) → List (Nat × Nat)
  | [] => [p]
  | q :: rest => if q.2 > p.2 then p :: q :: rest else q :: insert_route p rest

def sort_routes (rf : List (Nat × Nat)) : List (Nat × Nat) :=
  rf.foldl (fun acc p => insert_route p acc) []

/-- From `pair_minimize.h` (`find_route_index`): index of a route in the
sorted route list; the C raises `RTE_SWERR` when the route is missing, here
`none`. -/
def find_route_index (routes : List Nat) (route : Nat) : Option Nat :=
  routes.findIdx? (fun r => r == route)

/-- State threaded through `sort_table`: the table, the per-group next-free
offsets (`route_offset`), and the scan bookkeeping `pos_index` /
`next_index_offset`. -/
structure sort_state where
  tbl : List entry_t
  route_offset : List Nat
  pos_index : Nat
  next_index_offset : Nat
deriving Repr

/-- The inner cycle loop of `sort_table` (lines 227-251), with explicit fuel:
while `route_index != current_index`, place `entry` at
`route_offset[route_index]` (incrementing that offset), fail like the C
`rt_error` when the slot is at or past the table end, stop after a write that
landed at or before `pos` (`new_pos <= pos`, `pos` already incremented past
the entry just read), else continue with the displaced entry.  Fuel
exhaustion is also modelled as failure; each offset strictly grows per
placement, so the fuel passed by `sort_table` is never the binding limit. -/
def sort_cycle (routes : List Nat) (n pos : Nat) :
    Nat → entry_t → Nat → Nat → List entry_t → List Nat →
      Option (List entry_t × List Nat)
  | 0, _, _, _, _, _ => none
  | fuel + 1, entry, route_index, current_index, tbl, offs =>
    if route_index = current_index then some (tbl, offs)
    else
      let new_pos := offs.getD route_index 0
      let offs2 := offs.set route_index (new_pos + 1)
      if n ≤ new_pos then none
      else
        let old_entry := tbl.getD new_pos entry_default
        let tbl2 := tbl.set new_pos entry
        if new_pos ≤ pos then some (tbl2, offs2)
        else
          match find_route_index routes old_entry.route with
          | none => none
          | some ri2 => sort_cycle routes n pos fuel old_entry ri2 route_index tbl2 offs2

/-- The outer scan of `sort_table` (lines 210-252), one recursive step per
table position: read the entry at `pos`, advance `pos`, capture
`current_index` before the `pos == next_index_offset` bookkeeping, then run
the cycle loop. -/
def sort_table_go (routes freqs : List Nat) (n : Nat) :
    Nat → Nat → sort_state → Option sort_state
  | 0, _, st => some st
  | steps + 1, pos, st =>
    let entry := st.tbl.getD pos entry_default
    let pos2 := pos + 1
    match find_route_index routes entry.route with
    | none => none
    | some route_index =>
      let current_index := st.pos_index
      let pi2 := if pos2 = st.next_index_offset then st.pos_index + 1 else st.pos_index
      let nio2 := if pos2 = st.next_index_offset then
          st.next_index_offset + freqs.getD (st.pos_index + 1) 0
        else st.next_index_offset
      match sort_cycle routes n pos2 ((n + 1) * (routes.length + 1) + 1)
          entry route_index current_index st.tbl st.route_offset with
      | none => none
      | some (tbl2, offs2) =>
        sort_table_go routes freqs n steps pos2
          { tbl := tbl2, route_offset := offs2, pos_index := pi2,
            next_index_offset := nio2 }

/-- Cumulative group start offsets (lines 194-199): `route_offset[i]` is the
sum of the frequencies before `i`. -/
def cum_offsets : List Nat → Nat → List Nat
  | [], _ => []
  | f :: rest, acc => acc :: cum_offsets rest (acc + f)

/-- From `pair_minimize.h` (`sort_table`): early return on zero routes, then
the cycle-following scan over all positions.  The C terminates the process
on `rt_error`; that path is `none` here. -/
def sort_table (tbl : List entry_t) (rf : List (Nat × Nat)) : Option (List entry_t) :=
  if rf.length = 0 then some tbl
  else
    match sort_table_go (rf.map Prod.fst) (rf.map Prod.snd) tbl.length tbl.length 0
        { tbl := tbl, route_offset := cum_offsets (rf.map Prod.snd) 0,
          pos_index := 0, next_index_offset := (rf.map Prod.snd).getD 0 0 } with
    | none => none
    | some st => some st.tbl

/-- From `pair_minimize.h` (`find_merge`) iterated over the `for` loop of
`compress_by_route` (lines 108-114): try the candidates after `left` in
order; a merge whose keymask intersects some entry at or past
`remaining_index` is rejected; the first accepted one is returned with its
position among the candidates. -/
def find_first_merge (tbl : List entry_t) (rem : Nat) (e1 : entry_t) :
    List entry_t → Option (Nat × entry_t)
  | [] => none
  | e2 :: rest =>
    if (tbl.drop rem).any
        (fun c => keymask_intersect c.key_mask (merge e1 e2).key_mask) then
      match find_first_merge tbl rem e1 rest with
      | none => none
      | some (i, m2) => some (i + 1, m2)
    else some (0, merge e1 e2)

/-- Effect of `routing_table_copy_entry(index, right--)` on the candidate
segment: the matched candidate is overwritten by the last one and the
segment shrinks by one. -/
def remove_swap (rest : List entry_t) (i : Nat) : List entry_t :=
  (rest.set i (rest.getD (rest.length - 1) entry_default)).dropLast

/-- From `pair_minimize.h` (`compress_by_route`, lines 104-122) on the
segment `[left..right]` of the table: while the segment has two or more
entries, look for the first legal merge; on success the merged entry
replaces `left` and the matched entry is overwritten by `right` (segment
shrinks); otherwise the head entry is emitted at `write_index` and `left`
advances.  The surviving single entry is emitted last.  Emitted entries are
returned as a list (the C writes them at `write_index`, always at or before
`left`, so they never overlap the live segment or the check region).  The
segment shrinks by exactly one entry per step, so fuel equal to the segment
length always suffices; the fuel-exhaustion arm is unreachable at the call
sites below. -/
def compress_group (tbl : List entry_t) (rem : Nat) : Nat → List entry_t → List entry_t
  | _, [] => []
  | _, [e] => [e]
  | 0, seg => seg
  | fuel + 1, e :: e2 :: rest =>
    match find_first_merge tbl rem e (e2 :: rest) with
    | none => e :: compress_group tbl rem fuel (e2 :: rest)
    | some (i, m) => compress_group tbl rem fuel (m :: remove_swap (e2 :: rest) i)

/-- Length of the maximal run of entries with the given route at the head of
the list (the `while (right < table_size - 1 && ...)` extent scan, lines
315-319). -/
def run_length (route : Nat) : List entry_t → Nat
  | [] => 0
  | e :: rest => if e.route == route then run_length route rest + 1 else 0

/-- The compression loop of `minimise_run` (lines 307-336): process each
maximal equal-route group in order, with `remaining_index = right + 1`; after
each group fail if `write_index` exceeds `rtr_alloc_max()` (1023).  The
emitted entries concatenated in order are exactly the table the C leaves in
positions `[0, write_index)` before `routing_table_remove_from_size`.
`left` advances past one nonempty group per step, so fuel above the table
length always suffices. -/
def compress_phase (tbl : List entry_t) : Nat → Nat → Nat → Option (List entry_t)
  | 0, _, _ => none
  | fuel + 1, left, w =>
    if left < tbl.length then
      let ext := run_length (tbl.getD left entry_default).route (tbl.drop (left + 1))
      let outs := compress_group tbl (left + ext + 1) (ext + 1)
        ((tbl.drop left).take (ext + 1))
      if MAX_NUM_ROUTES < w + outs.length then none
      else
        match compress_phase tbl fuel (left + ext + 1) (w + outs.length) with
        | none => none
        | some out_rest => some (outs ++ out_rest)
    else some []

/-- From `pair_minimize.h` (`minimise_run`), with `stop_compressing` always
false (it is set only by a concurrent interrupt) and the
`MAX_NUM_ROUTES == rtr_alloc_max()` startup check satisfied: histogram the
routes (fail on too many), insertion-sort them by frequency, sort the table
by route group, compress each group, and shrink the table to the emitted
entries.  `none` is a `false` return (or a `rt_error` termination inside
`sort_table`). -/
def minimise_run (tbl : List entry_t) : Option (List entry_t) :=
  match histogram tbl [] with
  | none => none
  | some rf =>
    match sort_table tbl (sort_routes rf) with
    | none => none
    | some sorted => compress_phase sorted (sorted.length + 1) 0 0

/-- Full-mask word, for concrete single-key entries. -/
def F32 : Nat := 4294967295

/-- A concrete single-key entry with full mask and source 0. -/
def mk_entry (k r : Nat) : entry_t := { key_mask := ⟨k, F32⟩, route := r, source := 0 }

/-- The route-histogram plus route-sort plus table-sort prefix of
`minimise_run` (everything before the compression loop). -/
def sort_phase (tbl : List entry_t) : Option (List entry_t) :=
  match histogram tbl [] with
  | none => none
  | some rf => sort_table tbl (sort_routes rf)

/-- C8: on the three-entry table with routes 7, 7, 9 (frequencies 2 and 1, so
route 9 is sorted first), `sort_table` writes the first entry over the live
second entry (`new_pos <= pos` fires at `new_pos = pos`) and the displaced
entry is dropped: the sorted table is not a permutation of the input — the
key-2 entry is gone and two entries are duplicated. -/
theorem sort_phase_not_permutation :
    sort_phase [mk_entry 1 7, mk_entry 2 7, mk_entry 3 9] =
      some [mk_entry 3 9, mk_entry 1 7, mk_entry 3 9] ∧
    mk_entry 2 7 ∈ [mk_entry 1 7, mk_entry 2 7, mk_entry 3 9] ∧
    ¬ mk_entry 2 7 ∈ [mk_entry 3 9, mk_entry 1 7, mk_entry 3 9] := by decide

/-- C1: on the same table (3 entries, well under the 1023 capacity)
`minimise_run` succeeds, yet the key 2 — matched in the input by the entry
`(key 2, full mask, route 7)` — is matched by no entry of the result: the
sort phase lost that entry, so behavioural equivalence fails. -/
theorem minimise_run_loses_matched_key :
    minimise_run [mk_entry 1 7, mk_entry 2 7, mk_entry 3 9] =
      some [mk_entry 3 9, mk_entry 1 7, mk_entry 3 9] ∧
    keymask_match (mk_entry 2 7).key_mask 2 = true ∧
    ([mk_entry 3 9, mk_entry 1 7, mk_entry 3 9].all
        (fun e => ! keymask_match e.key_mask 2)) = true := by decide

/-- C9 counterexample: a five-entry table where the route-9 group merges to
one entry while the route-7 group cannot merge (its merged keymask would
intersect the key-0 entry).  The first run returns three entries ordered
route 7 then route 9; rerunning re-sorts by the new frequencies (route 9
first), the re-sort drops an entry and duplicates the merged one, and the
second (successful) run returns a different table: `minimise` is not
idempotent. -/
theorem minimise_run_not_idempotent :
    minimise_run [mk_entry 4 7, mk_entry 8 7, mk_entry 0 9, mk_entry 1 9, mk_entry 2 9] =
      some [mk_entry 4 7, mk_entry 8 7, ⟨⟨0, 4294967292⟩, 9, 0⟩] ∧
    minimise_run [mk_entry 4 7, mk_entry 8 7, ⟨⟨0, 4294967292⟩, 9, 0⟩] =
      some [⟨⟨0, 4294967292⟩, 9, 0⟩, mk_entry 4 7, ⟨⟨0, 4294967292⟩, 9, 0⟩] ∧
    ¬ ([mk_entry 4 7, mk_entry 8 7, ⟨⟨0, 4294967292⟩, 9, 0⟩] =
        [⟨⟨0, 4294967292⟩, 9, 0⟩, mk_entry 4 7, ⟨⟨0, 4294967292⟩, 9, 0⟩]) := by decide

/-- C2 counterexample: four pairwise non-intersecting full-mask entries, two
per route.  Each group merges (each merge is only checked against entries at
or past its group's `remaining_index`), and the two entries of the
successful result intersect each other: post-compression entries are not
pairwise non-intersecting. -/
theorem minimise_run_output_entries_intersect :
    minimise_run [mk_entry 2 5, mk_entry 6 5, mk_entry 0 6, mk_entry 3 6] =
      some [⟨⟨2, 4294967291⟩, 5, 0⟩, ⟨⟨0, 4294967292⟩, 6, 0⟩] ∧
    ([mk_entry 2 5, mk_entry 6 5, mk_entry 0 6, mk_entry 3 6].Pairwise
        (fun a b => keymask_intersect a.key_mask b.key_mask = false)) ∧
    keymask_intersect ⟨2, 4294967291⟩ ⟨0, 4294967292⟩ = true := by decide

/-- Number of distinct route values in a table. -/
def nDistinct (tbl : List entry_t) : Nat := (tbl.map entry_t.route).toFinset.card

theorem routesOf_incr (route : Nat) (rf : List (Nat × Nat)) :
    (incr_route_frequency route rf).map Prod.fst = rf.map Prod.fst := by
  induction rf with
  | nil => rfl
  | cons p rest ih =>
    obtain ⟨r, f⟩ := p
    by_cases h : r = route <;> simp [incr_route_frequency, h, ih]

theorem length_incr (route : Nat) (rf : List (Nat × Nat)) :
    (incr_route_frequency route rf).length = rf.length := by
  induction rf with
  | nil => rfl
  | cons p rest ih =>
    obtain ⟨r, f⟩ := p
    by_cases h : r = route <;> simp [incr_route_frequency, h, ih]

theorem histogram_isSome_iff (es : List entry_t) :
    ∀ rf : List (Nat × Nat), (rf.map Prod.fst).Nodup → rf.length ≤ 1022 →
      ((histogram es rf).isSome = true ↔
        ((es.map entry_t.route).toFinset ∪ (rf.map Prod.fst).toFinset).card ≤ 1022) := by
  induction es with
  | nil =>
    intro rf hnd hlen
    have hcard : (rf.map Prod.fst).toFinset.card = rf.length := by
      rw [List.toFinset_card_of_nodup hnd, List.length_map]
    simp [histogram, hcard, hlen]
  | cons e es ih =>
    intro rf hnd hlen
    by_cases hmem : e.route ∈ rf.map Prod.fst
    · have hstep : histogram (e :: es) rf = histogram es (incr_route_frequency e.route rf) := by
        simp [histogram, update_frequency, hmem]
      have hnd2 : ((incr_route_frequency e.route rf).map Prod.fst).Nodup := by
        rw [routesOf_incr]; exact hnd
      have hlen2 : (incr_route_frequency e.route rf).length ≤ 1022 := by
        rw [length_incr]; exact hlen
      rw [hstep, ih _ hnd2 hlen2, routesOf_incr]
      have hset : (((e :: es).map entry_t.route).toFinset ∪ (rf.map Prod.fst).toFinset) =
          ((es.map entry_t.route).toFinset ∪ (rf.map Prod.fst).toFinset) := by
        ext a
        simp only [List.map_cons, List.toFinset_cons, Finset.mem_union, Finset.mem_insert,
          List.mem_toFinset]
        constructor
        · rintro ((h | h) | h)
          · exact Or.inr (h ▸ hmem)
          · exact Or.inl h
          · exact Or.inr h
        · rintro (h | h)
          · exact Or.inl (Or.inr h)
          · exact Or.inr h
      rw [hset]
    · have hroute : e.route ∉ (rf.map Prod.fst).toFinset := by
        simpa [List.mem_toFinset] using hmem
      have hcard : (rf.map Prod.fst).toFinset.card = rf.length := by
        rw [List.toFinset_card_of_nodup hnd, List.length_map]
      by_cases hfull : MAX_NUM_ROUTES ≤ rf.length + 1
      · have hstep : histogram (e :: es) rf = none := by
          simp [histogram, update_frequency, hmem, hfull]
        have hsub : insert e.route (rf.map Prod.fst).toFinset ⊆
            ((e :: es).map entry_t.route).toFinset ∪ (rf.map Prod.fst).toFinset := by
          intro a ha
          rcases Finset.mem_insert.mp ha with h | h
          · subst h
            exact Finset.mem_union_left _ (by simp)
          · exact Finset.mem_union_right _ h
        have hbig : 1023 ≤
            (((e :: es).map entry_t.route).toFinset ∪ (rf.map Prod.fst).toFinset).card := by
          have h1 : (insert e.route (rf.map Prod.fst).toFinset).card = rf.length + 1 := by
            rw [Finset.card_insert_of_not_mem hroute, hcard]
          have h2 := Finset.card_le_card hsub
          have h3 : 1023 ≤ rf.length + 1 := by
            simpa [MAX_NUM_ROUTES] using hfull
          omega
        rw [hstep]
        constructor
        · intro h; simp at h
        · intro h; omega
      · have hstep : histogram (e :: es) rf = histogram es (rf ++ [(e.route, 1)]) := by
          simp [histogram, update_frequency, hmem, hfull]
        have hmap2 : (rf ++ [(e.route, 1)]).map Prod.fst = rf.map Prod.fst ++ [e.route] := by
          simp
        have hnd2 : ((rf ++ [(e.route, 1)]).map Prod.fst).Nodup := by
          rw [hmap2]
          simp [List.nodup_append, hnd, hmem]
        have hlen2 : (rf ++ [(e.route, 1)]).length ≤ 1022 := by
          have : ¬ 1023 ≤ rf.length + 1 := by simpa [MAX_NUM_ROUTES] using hfull
          simp only [List.length_append, List.length_cons, List.length_nil]
          omega
        rw [hstep, ih _ hnd2 hlen2, hmap2]
        have hset : ((es.map entry_t.route).toFinset ∪
              (rf.map Prod.fst ++ [e.route]).toFinset) =
            (((e :: es).map entry_t.route).toFinset ∪ (rf.map Prod.fst).toFinset) := by
          ext a
          simp only [List.map_cons, List.toFinset_cons, List.toFinset_append,
            Finset.mem_union, Finset.mem_insert, List.mem_toFinset]
          tauto
        rw [hset]

/-- C7 (amended): the frequency-histogram phase of `minimise_run` succeeds
exactly when the table has at most 1022 distinct routes — the check
`routes_count >= MAX_NUM_ROUTES` runs after the count is incremented, so it
fires as the 1023rd distinct route is appended. -/
theorem histogram_succeeds_iff_routes_le_1022 (tbl : List entry_t) :
    (histogram tbl []).isSome = true ↔ nDistinct tbl ≤ 1022 := by
  have h := histogram_isSome_iff tbl [] (by simp) (by simp)
  simpa [nDistinct] using h

/-- Concrete table with exactly 1023 distinct routes (route `i` on key `i`). -/
def table_1023_routes : List entry_t := (List.range 1023).map (fun i => mk_entry i i)

theorem table_1023_routes_map :
    table_1023_routes.map entry_t.route = List.range 1023 := by
  rw [table_1023_routes, List.map_map]
  exact List.map_id _

/-- C7 counterexample: a table with exactly 1023 distinct routes — within the
claimed tolerance of `MAX_ROUTES` (1023) — already fails the histogram phase,
and `minimise_run` returns false without attempting compression. -/
theorem histogram_fails_at_1023_routes :
    nDistinct table_1023_routes = 1023 ∧
      histogram table_1023_routes [] = none ∧
      minimise_run table_1023_routes = none := by
  have hd : nDistinct table_1023_routes = 1023 := by
    rw [nDistinct, table_1023_routes_map,
      List.toFinset_card_of_nodup (List.nodup_range 1023), List.length_range]
  have hnone : histogram table_1023_routes [] = none := by
    have h := histogram_isSome_iff table_1023_routes [] (by simp) (by simp)
    simp only [List.map_nil, List.toFinset_nil, Finset.union_empty] at h
    rw [show (table_1023_routes.map entry_t.route).toFinset.card = 1023 from hd] at h
    have h2 : ¬ (histogram table_1023_routes []).isSome = true := by
      rw [h]; omega
    exact Option.not_isSome_iff_eq_none.mp (by simpa using h2)
  refine ⟨hd, hnone, ?_⟩
  rw [minimise_run, hnone]

theorem remove_swap_length (rest : List entry_t) (i : Nat) :
    (remove_swap rest i).length = rest.length - 1 := by
  simp [remove_swap]

theorem compress_group_length_le (tbl : List entry_t) (rem : Nat) :
    ∀ fuel seg, (compress_group tbl rem fuel seg).length ≤ seg.length := by
  intro fuel
  induction fuel with
  | zero =>
    intro seg
    match seg with
    | [] => simp [compress_group]
    | [e] => simp [compress_group]
    | e :: e2 :: rest => simp [compress_group]
  | succ fuel ih =>
    intro seg
    match seg with
    | [] => simp [compress_group]
    | [e] => simp [compress_group]
    | e :: e2 :: rest =>
      rw [compress_group]
      cases hfm : find_first_merge tbl rem e (e2 :: rest) with
      | none =>
        have h := ih (e2 :: rest)
        simpa using Nat.succ_le_succ h
      | some im =>
        obtain ⟨i, m⟩ := im
        have h := ih (m :: remove_swap (e2 :: rest) i)
        have h2 : (m :: remove_swap (e2 :: rest) i).length = rest.length + 1 := by
          simp [remove_swap_length]
        simp only [List.length_cons]
        omega

theorem compress_phase_length_le (tbl : List entry_t) :
    ∀ fuel left w out, compress_phase tbl fuel left w = some out →
      out.length ≤ tbl.length - left := by
  intro fuel
  induction fuel with
  | zero => intro left w out h; simp [compress_phase] at h
  | succ fuel ih =>
    intro left w out h
    rw [compress_phase] at h
    by_cases hlt : left < tbl.length
    · simp only [hlt, if_true] at h
      by_cases hcap : MAX_NUM_ROUTES <
          w + (compress_group tbl
            (left + run_length (tbl.getD left entry_default).route (tbl.drop (left + 1)) + 1)
            (run_length (tbl.getD left entry_default).route (tbl.drop (left + 1)) + 1)
            ((tbl.drop left).take
              (run_length (tbl.getD left entry_default).route (tbl.drop (left + 1)) + 1))).length
      · simp only [hcap, if_true] at h
        exact absurd h (by simp)
      · simp only [hcap, if_false] at h
        cases hrec : compress_phase tbl fuel
            (left + run_length (tbl.getD left entry_default).route (tbl.drop (left + 1)) + 1)
            (w + (compress_group tbl
              (left + run_length (tbl.getD left entry_default).route (tbl.drop (left + 1)) + 1)
              (run_length (tbl.getD left entry_default).route (tbl.drop (left + 1)) + 1)
              ((tbl.drop left).take
                (run_length (tbl.getD left entry_default).route (tbl.drop (left + 1)) + 1))).length) with
        | none => rw [hrec] at h; simp at h
        | some out_rest =>
          rw [hrec] at h
          simp only [Option.some.injEq] at h
          subst h
          have hrest := ih _ _ _ hrec
          have houts := compress_group_length_le tbl
            (left + run_length (tbl.getD left entry_default).route (tbl.drop (left + 1)) + 1)
            (run_length (tbl.getD left entry_default).route (tbl.drop (left + 1)) + 1)
            ((tbl.drop left).take
              (run_length (tbl.getD left entry_default).route (tbl.drop (left + 1)) + 1))
          have hseg : ((tbl.drop left).take
              (run_length (tbl.getD left entry_default).route (tbl.drop (left + 1)) + 1)).length =
              min (run_length (tbl.getD left entry_default).route (tbl.drop (left + 1)) + 1)
                (tbl.length - left) := by
            rw [List.length_take, List.length_drop]
          rw [List.length_append]
          rw [hseg] at houts
          rcases Nat.le_total (run_length (tbl.getD left entry_default).route (tbl.drop (left + 1)) + 1)
            (tbl.length - left) with hmin | hmin
          · rw [Nat.min_eq_left hmin] at houts
            omega
          · rw [Nat.min_eq_right hmin] at houts
            omega
    · simp only [hlt, if_false] at h
      simp only [Option.some.injEq] at h
      subst h
      simp

theorem sort_cycle_length (routes : List Nat) (n pos : Nat) :
    ∀ fuel entry ri ci tbl offs tbl2 offs2,
      sort_cycle routes n pos fuel entry ri ci tbl offs = some (tbl2, offs2) →
      tbl2.length = tbl.length := by
  intro fuel
  induction fuel with
  | zero => intro entry ri ci tbl offs tbl2 offs2 h; simp [sort_cycle] at h
  | succ fuel ih =>
    intro entry ri ci tbl offs tbl2 offs2 h
    rw [sort_cycle] at h
    by_cases heq : ri = ci
    · simp only [heq, if_true] at h
      obtain ⟨h1, h2⟩ := Prod.mk.injEq .. ▸ Option.some.injEq .. ▸ h
      rw [← h1]
    · simp only [heq, if_false] at h
      by_cases hn : n ≤ offs.getD ri 0
      · simp only [hn, if_true] at h
        exact absurd h (by simp)
      · simp only [hn, if_false] at h
        by_cases hp : offs.getD ri 0 ≤ pos
        · simp only [hp, if_true] at h
          obtain ⟨h1, h2⟩ := Prod.mk.injEq .. ▸ Option.some.injEq .. ▸ h
          rw [← h1, List.length_set]
        · simp only [hp, if_false] at h
          cases hfr : find_route_index routes
              ((tbl.getD (offs.getD ri 0) entry_default).route) with
          | none => rw [hfr] at h; exact absurd h (by simp)
          | some ri2 =>
            rw [hfr] at h
            have := ih _ _ _ _ _ _ _ h
            rw [this, List.length_set]

theorem sort_table_go_length (routes freqs : List Nat) (n : Nat) :
    ∀ steps pos st st2, sort_table_go routes freqs n steps pos st = some st2 →
      st2.tbl.length = st.tbl.length := by
  intro steps
  induction steps with
  | zero =>
    intro pos st st2 h
    simp only [sort_table_go, Option.some.injEq] at h
    rw [← h]
  | succ steps ih =>
    intro pos st st2 h
    rw [sort_table_go] at h
    cases hfr : find_route_index routes ((st.tbl.getD pos entry_default).route) with
    | none => rw [hfr] at h; exact absurd h (by simp)
    | some route_index =>
      rw [hfr] at h
      simp only at h
      cases hcy : sort_cycle routes n (pos + 1) ((n + 1) * (routes.length + 1) + 1)
          (st.tbl.getD pos entry_default) route_index st.pos_index st.tbl st.route_offset with
      | none => rw [hcy] at h; exact absurd h (by simp)
      | some p =>
        obtain ⟨tbl2, offs2⟩ := p
        rw [hcy] at h
        have h1 := ih _ _ _ h
        have h2 := sort_cycle_length routes n (pos + 1) _ _ _ _ _ _ _ _ hcy
        simp only at h1
        rw [h1, h2]

theorem sort_table_length (tbl : List entry_t) (rf : List (Nat × Nat))
    (sorted : List entry_t) (h : sort_table tbl rf = some sorted) :
    sorted.length = tbl.length := by
  rw [sort_table] at h
  by_cases hz : rf.length = 0
  · simp only [hz, if_true, Option.some.injEq] at h
    rw [← h]
  · simp only [hz, if_false] at h
    cases hgo : sort_table_go (rf.map Prod.fst) (rf.map Prod.snd) tbl.length tbl.length 0
        { tbl := tbl, route_offset := cum_offsets (rf.map Prod.snd) 0,
          pos_index := 0, next_index_offset := (rf.map Prod.snd).getD 0 0 } with
    | none => rw [hgo] at h; exact absurd h (by simp)
    | some st =>
      rw [hgo] at h
      simp only [Option.some.injEq] at h
      have := sort_table_go_length (rf.map Prod.fst) (rf.map Prod.snd) tbl.length _ _ _ _ hgo
      rw [← h, this]

/-- C9 (amended): rerunning the minimiser on a successful output need not
reproduce it byte-for-byte (see the counterexample); what holds is that a
successful rerun returns a table with at most as many entries. -/
theorem minimise_run_rerun_no_larger (t t1 t2 : List entry_t)
    (h1 : minimise_run t = some t1) (h2 : minimise_run t1 = some t2) :
    t2.length ≤ t1.length := by
  rw [minimise_run] at h2
  cases hh : histogram t1 [] with
  | none => rw [hh] at h2; exact absurd h2 (by simp)
  | some rf =>
    rw [hh] at h2
    simp only at h2
    cases hs : sort_table t1 (sort_routes rf) with
    | none => rw [hs] at h2; exact absurd h2 (by simp)
    | some sorted =>
      rw [hs] at h2
      simp only at h2
      have hlen := sort_table_length t1 (sort_routes rf) sorted hs
      have := compress_phase_length_le sorted _ _ _ _ h2
      omega

/-- Witness for C9 at the concrete idempotence counterexample tables. -/
theorem minimise_run_rerun_no_larger_witness :
    ([⟨⟨0, 4294967292⟩, 9, 0⟩, mk_entry 4 7, ⟨⟨0, 4294967292⟩, 9, 0⟩] : List entry_t).length ≤
      ([mk_entry 4 7, mk_entry 8 7, ⟨⟨0, 4294967292⟩, 9, 0⟩] : List entry_t).length :=
  minimise_run_rerun_no_larger
    [mk_entry 4 7, mk_entry 8 7, mk_entry 0 9, mk_entry 1 9, mk_entry 2 9]
    [mk_entry 4 7, mk_entry 8 7, ⟨⟨0, 4294967292⟩, 9, 0⟩]
    [⟨⟨0, 4294967292⟩, 9, 0⟩, mk_entry 4 7, ⟨⟨0, 4294967292⟩, 9, 0⟩]
    (by decide) (by decide)

theorem keymask_intersect_comm (a b : keymask_t) :
    keymask_intersect a b = keymask_intersect b a := by
  simp only [keymask_intersect]
  rw [Bool.eq_iff_iff]
  simp only [beq_iff_eq]
  exact eq_comm

theorem find_first_merge_clear (tbl : List entry_t) (rem : Nat) (e1 : entry_t) :
    ∀ rest i m, find_first_merge tbl rem e1 rest = some (i, m) →
      ∀ c ∈ tbl.drop rem, keymask_intersect c.key_mask m.key_mask = false := by
  intro rest
  induction rest with
  | nil => intro i m h; simp [find_first_merge] at h
  | cons e2 rest ih =>
    intro i m h
    rw [find_first_merge] at h
    by_cases hany : (tbl.drop rem).any
        (fun c => keymask_intersect c.key_mask (merge e1 e2).key_mask) = true
    · simp only [hany, if_true] at h
      cases hrec : find_first_merge tbl rem e1 rest with
      | none => rw [hrec] at h; exact absurd h (by simp)
      | some im =>
        obtain ⟨i2, m2⟩ := im
        rw [hrec] at h
        simp only [Option.some.injEq, Prod.mk.injEq] at h
        obtain ⟨h1, h2⟩ := h
        rw [← h2]
        exact ih i2 m2 hrec
    · rw [Bool.not_eq_true] at hany
      simp only [hany, Bool.false_eq_true, if_false, Option.some.injEq,
        Prod.mk.injEq] at h
      obtain ⟨h1, h2⟩ := h
      subst h2
      intro c hc
      have := List.any_eq_false.mp hany c hc
      simpa using this

theorem remove_swap_subset (rest : List entry_t) (i : Nat) (hne : rest ≠ []) :
    ∀ x ∈ remove_swap rest i, x ∈ rest := by
  intro x hx
  rw [remove_swap] at hx
  have hx2 : x ∈ rest.set i (rest.getD (rest.length - 1) entry_default) :=
    List.dropLast_subset _ hx
  rcases List.mem_or_eq_of_mem_set hx2 with h | h
  · exact h
  · subst h
    have hlen : rest.length - 1 < rest.length := by
      cases rest with
      | nil => exact absurd rfl hne
      | cons a l => simp
    rw [List.getD_eq_getElem _ _ hlen]
    exact List.getElem_mem hlen

theorem compress_group_clear_aux (tbl : List entry_t) (rem : Nat) :
    ∀ fuel seg,
      (∀ m ∈ seg, ∀ c ∈ tbl.drop rem, keymask_intersect c.key_mask m.key_mask = false) →
      ∀ e ∈ compress_group tbl rem fuel seg, ∀ c ∈ tbl.drop rem,
        keymask_intersect c.key_mask e.key_mask = false := by
  intro fuel
  induction fuel with
  | zero =>
    intro seg hseg e he
    match seg, he with
    | [e0], he => simp only [compress_group] at he; exact hseg e (by simpa using he)
    | e0 :: e1 :: rest, he => exact hseg e (by simpa [compress_group] using he)
  | succ fuel ih =>
    intro seg hseg e he
    match seg, he with
    | [e0], he => simp only [compress_group] at he; exact hseg e (by simpa using he)
    | e0 :: e1 :: rest, he =>
      rw [compress_group] at he
      cases hfm : find_first_merge tbl rem e0 (e1 :: rest) with
      | none =>
        rw [hfm] at he
        rcases List.mem_cons.mp he with h | h
        · subst h; exact hseg e (by simp)
        · exact ih (e1 :: rest) (fun m hm => hseg m (List.mem_cons_of_mem _ hm)) e h
      | some im =>
        obtain ⟨i, m⟩ := im
        rw [hfm] at he
        refine ih (m :: remove_swap (e1 :: rest) i) ?_ e he
        intro m2 hm2
        rcases List.mem_cons.mp hm2 with h | h
        · rw [h]
          exact find_first_merge_clear tbl rem e0 (e1 :: rest) i m hfm
        · exact hseg m2 (List.mem_cons_of_mem _
            (remove_swap_subset (e1 :: rest) i (by simp) m2 h))

/-- C2 (amended): what `find_merge` actually guarantees: when the compression
of one route group succeeds on a segment none of whose entries intersects any
entry at or past the group's `remaining_index`, every entry the group emits
still intersects no entry at or past `remaining_index` — merged entries by
the `find_merge` scan, unmerged ones because they are segment entries.  Two
emitted entries of the final table may nevertheless intersect each other
(see the counterexample). -/
theorem compress_group_clear_of_remaining (tbl : List entry_t) (rem fuel : Nat)
    (seg : List entry_t)
    (hseg : (seg.all (fun m => (tbl.drop rem).all
        (fun c => ! keymask_intersect m.key_mask c.key_mask))) = true) :
    ((compress_group tbl rem fuel seg).all (fun e => (tbl.drop rem).all
        (fun c => ! keymask_intersect e.key_mask c.key_mask))) = true := by
  rw [List.all_eq_true]
  intro e he
  rw [List.all_eq_true]
  intro c hc
  have haux := compress_group_clear_aux tbl rem fuel seg ?_ e he c hc
  · rw [Bool.not_eq_true']
    rw [keymask_intersect_comm]
    exact haux
  · intro m hm c2 hc2
    have := List.all_eq_true.mp (List.all_eq_true.mp hseg m hm) c2 hc2
    rw [Bool.not_eq_true'] at this
    rw [keymask_intersect_comm]
    exact this

/-- Witness for C2 at the first group of the intersection counterexample. -/
theorem compress_group_clear_of_remaining_witness :
    ((compress_group [mk_entry 2 5, mk_entry 6 5, mk_entry 0 6, mk_entry 3 6] 2 2
        [mk_entry 2 5, mk_entry 6 5]).all
      (fun e => (([mk_entry 2 5, mk_entry 6 5, mk_entry 0 6, mk_entry 3 6].drop 2).all
        (fun c => ! keymask_intersect e.key_mask c.key_mask)))) = true :=
  compress_group_clear_of_remaining
    [mk_entry 2 5, mk_entry 6 5, mk_entry 0 6, mk_entry 3 6] 2 2
    [mk_entry 2 5, mk_entry 6 5] (by decide)

/-- The coordinator's search bounds (`bit_field_sorter_and_searcher.c`):
`best_success` (initially `FAILED_TO_FIND = -1`) and `lowest_failure`
(initially `sorted_bit_fields->n_bit_fields`). -/
structure search_state where
  best_success : Int
  lowest_failure : Int
deriving DecidableEq, Repr

/-- Worker outcomes as dispatched by `process_compressor_response`:
`SUCCESSFUL_COMPRESSION`, `FAILED_TO_COMPRESS` / `RAN_OUT_OF_TIME` (both go
to `process_failed`), `FAILED_MALLOC`, and the force-stop acknowledgement. -/
inductive outcome_event where
  | success (mid_point : Int)
  | failed (mid_point : Int)
  | failed_malloc (mid_point : Int)
  | forced_stop
deriving DecidableEq, Repr

/-- Effect of one processed outcome on the bounds: `process_success`
(line 669) raises `best_success` whenever `best_success <= mid_point`;
`process_failed` (line 739) lowers `lowest_failure` whenever
`lowest_failure > mid_point` (a `failed` at mid-point 0 instead terminates
the run with `EXIT_FAIL`, line 735); `process_failed_malloc` and the
forced-stop acknowledgement leave both bounds alone. -/
def process_outcome (s : search_state) : outcome_event → search_state
  | .success n => if s.best_success ≤ n then { s with best_success := n } else s
  | .failed n => if s.lowest_failure > n then { s with lowest_failure := n } else s
  | .failed_malloc _ => s
  | .forced_stop => s

/-- Initial bounds: no result known (`best_success = -1`,
`lowest_failure = M`, lines 86 and 926). -/
def initial_search_state (M : Nat) : search_state :=
  { best_success := -1, lowest_failure := (M : Int) }

/-- The bounds after the coordinator processes a sequence of outcomes. -/
def process_all (M : Nat) (evs : List outcome_event) : search_state :=
  evs.foldl process_outcome (initial_search_state M)

/-- Guard under which the amended invariant holds: every success is processed
at a midpoint below the current `lowest_failure`, every (non-malloc) failure
at a nonzero midpoint above the current `best_success`. -/
def guarded_events (s : search_state) : List outcome_event → Bool
  | [] => true
  | .success n :: rest =>
    decide (n < s.lowest_failure) && guarded_events (process_outcome s (.success n)) rest
  | .failed n :: rest =>
    decide (s.best_success < n) && decide (n ≠ 0) &&
      guarded_events (process_outcome s (.failed n)) rest
  | .failed_malloc n :: rest => guarded_events (process_outcome s (.failed_malloc n)) rest
  | .forced_stop :: rest => guarded_events (process_outcome s .forced_stop) rest

theorem guarded_fold_invariant :
    ∀ (evs : List outcome_event) (s : search_state),
      s.best_success < s.lowest_failure → guarded_events s evs = true →
      (evs.foldl process_outcome s).best_success <
        (evs.foldl process_outcome s).lowest_failure := by
  intro evs
  induction evs with
  | nil => intro s hs _; simpa using hs
  | cons e rest ih =>
    intro s hs hg
    cases e with
    | success n =>
      rw [guarded_events] at hg
      simp only [Bool.and_eq_true, decide_eq_true_eq] at hg
      obtain ⟨hn, hg2⟩ := hg
      refine ih (process_outcome s (.success n)) ?_ hg2
      simp only [process_outcome]
      by_cases hb : s.best_success ≤ n
      · simp only [hb, if_true]; exact hn
      · simp only [hb, if_false]; exact hs
    | failed n =>
      rw [guarded_events] at hg
      simp only [Bool.and_eq_true, decide_eq_true_eq] at hg
      obtain ⟨⟨hn, _⟩, hg2⟩ := hg
      refine ih (process_outcome s (.failed n)) ?_ hg2
      simp only [process_outcome]
      by_cases hb : s.lowest_failure > n
      · simp only [hb, if_true]; exact hn
      · simp only [hb, if_false]; exact hs
    | failed_malloc n =>
      rw [guarded_events] at hg
      exact ih _ (by simpa [process_outcome] using hs) hg
    | forced_stop =>
      rw [guarded_events] at hg
      exact ih _ (by simpa [process_outcome] using hs) hg

/-- C4 (amended): before any result `best_success = -1` and
`lowest_failure = M`, and the invariant `best_success < lowest_failure`
holds after every processed outcome provided each success arrives below the
current `lowest_failure` and each failure above the current `best_success`
and not at 0.  A late success at or above `lowest_failure` (allowed by the
original claim) breaks the invariant — see the counterexample. -/
theorem search_invariant_guarded (M : Nat) (evs : List outcome_event)
    (hg : guarded_events (initial_search_state M) evs = true) :
    (initial_search_state M).best_success = -1 ∧
      (initial_search_state M).lowest_failure = (M : Int) ∧
      (process_all M evs).best_success < (process_all M evs).lowest_failure := by
  refine ⟨rfl, rfl, ?_⟩
  refine guarded_fold_invariant evs (initial_search_state M) ?_ hg
  simp only [initial_search_state]
  omega

/-- Witness for C4 on a concrete guarded outcome sequence. -/
theorem search_invariant_guarded_witness :
    (initial_search_state 3).best_success = -1 ∧
      (initial_search_state 3).lowest_failure = (3 : Int) ∧
      (process_all 3 [.success 1, .failed 2]).best_success <
        (process_all 3 [.success 1, .failed 2]).lowest_failure :=
  search_invariant_guarded 3 [.success 1, .failed 2] (by decide)

/-- C4 counterexample: with `M = 10`, a failure at 4 followed by a late
success at 6 (a midpoint above the recorded failure, which the claim says
must still be processed normally) leaves `best_success = 6` above
`lowest_failure = 4`: the claimed invariant does not survive such an
outcome. -/
theorem search_invariant_violated_by_late_success :
    (process_all 10 [.failed 4, .success 6]).best_success = 6 ∧
      (process_all 10 [.failed 4, .success 6]).lowest_failure = 4 ∧
      ¬ (process_all 10 [.failed 4, .success 6]).best_success <
          (process_all 10 [.failed 4, .success 6]).lowest_failure := by decide

/-- State touched by `process_failed_malloc`
(`bit_field_sorter_and_searcher.c`, lines 700-728): the `tested_mid_points`
bit field (a predicate on midpoints), `last_malloc_failed`
(`LAST_RESULT_NOT_MALLOC_FAIL = -1` when the previous outcome was not a
malloc failure), and whether this worker's `sorter_instruction` was set to
`DO_NOT_USE`. -/
structure malloc_state where
  tested : Nat → Bool
  last_malloc_failed : Int
  do_not_use : Bool

/-- `bit_field_clear` on the tested-midpoints bit field. -/
def bit_field_clear_at (tested : Nat → Bool) (n : Nat) : Nat → Bool :=
  fun i => if i = n then false else tested i

/-- From `process_failed_malloc`: line 703 clears `tested_mid_points[mid_point]`
unconditionally, before any branch; the first-failure branch clears it again
and retires the worker; the repeated-failure branch (`last_malloc_failed ==
mid_point`) clears it again only for midpoint 0 and retires the worker (its
comment says the bit is being kept so the midpoint is not retried — but
line 703 already cleared it); the third branch clears it and resets the
throttle. -/
def process_failed_malloc (mid_point : Nat) (s : malloc_state) : malloc_state :=
  let t1 := bit_field_clear_at s.tested mid_point
  if s.last_malloc_failed = -1 then
    { tested := bit_field_clear_at t1 mid_point,
      last_malloc_failed := (mid_point : Int), do_not_use := true }
  else if s.last_malloc_failed = (mid_point : Int) then
    { tested := if mid_point = 0 then bit_field_clear_at t1 mid_point else t1,
      last_malloc_failed := s.last_malloc_failed, do_not_use := true }
  else
    { tested := bit_field_clear_at t1 mid_point,
      last_malloc_failed := -1, do_not_use := s.do_not_use }

/-- C6: a second consecutive malloc failure at midpoint 5 (nonzero) is meant
to leave `tested_mid_points[5]` set so 5 is never retried, but the
unconditional clear at the top of `process_failed_malloc` has already
cleared the bit, so it ends false and 5 can be retried; the worker is still
retired. -/
theorem process_failed_malloc_clears_repeated_bit :
    (process_failed_malloc 5
        { tested := fun i => decide (i = 5), last_malloc_failed := 5,
          do_not_use := false }).tested 5 = false ∧
      (process_failed_malloc 5
        { tested := fun i => decide (i = 5), last_malloc_failed := 5,
          do_not_use := false }).do_not_use = true ∧
      (process_failed_malloc 0
        { tested := fun i => decide (i = 0), last_malloc_failed := 0,
          do_not_use := false }).tested 0 = false := by
  refine ⟨?_, ?_, ?_⟩ <;> rfl

/-- The gap scan of `locate_next_mid_point` (lines 387-416), state
`(best_end, best_length, current_length)` as the C `int`s: an untested index
extends the current block; a tested index closes it, recording it as the best
when strictly longer than the best so far. -/
def locate_scan (tested : Nat → Bool) :
    Nat → Nat → Int × Int × Int → Int × Int × Int
  | _, 0, st => st
  | start, steps + 1, (best_end, best_length, current_length) =>
    if tested start then
      if current_length > best_length then
        locate_scan tested (start + 1) steps ((start : Int) - 1, current_length, 0)
      else locate_scan tested (start + 1) steps (best_end, best_length, 0)
    else locate_scan tested (start + 1) steps (best_end, best_length, current_length + 1)

/-- From `bit_field_sorter_and_searcher.c` (`locate_next_mid_point`,
lines 341-434), for states with `best_success >= -1` (the scan starts at
`best_success + 1`): retry 0 while untested; `FAILED_TO_FIND` when there are
no bit-fields; retry `M` while untested; otherwise scan
`best_success + 1 .. lowest_failure` for the longest block of untested
midpoints and return `best_end - (best_length >> 1)`.  The final safety check
(`rt_error` when the returned nonnegative midpoint is already tested) is the
`none` arm. -/
def locate_next_mid_point (tested : Nat → Bool) (M : Nat)
    (best_success lowest_failure : Int) : Option Int :=
  if ¬ tested 0 then some 0
  else if M = 0 then some (-1)
  else if ¬ tested M then some (M : Int)
  else
    match locate_scan tested (best_success + 1).toNat
        (lowest_failure + 1 - ((best_success + 1).toNat : Int)).toNat (-1, 0, 0) with
    | (best_end, best_length, _) =>
      if 0 ≤ best_end - best_length / 2 ∧ tested (best_end - best_length / 2).toNat then
        none
      else some (best_end - best_length / 2)

/-- The maximal untested runs the scan completes, as `(start, length)` pairs:
a run is recorded when the scan hits a tested index; `cur` is the length of
the pending run reaching the scan position from the left. -/
def gap_runs (tested : Nat → Bool) : Nat → Nat → Nat → List (Nat × Nat)
  | _, 0, _ => []
  | start, steps + 1, cur =>
    if tested start then
      (if 0 < cur then [(start - cur, cur)] else []) ++ gap_runs tested (start + 1) steps 0
    else gap_runs tested (start + 1) steps (cur + 1)

/-- Folding the recorded runs with the code's update rule: a run replaces the
best only when strictly longer, so of several longest runs the first is
kept. -/
def pick_first_longest (rs : List (Nat × Nat)) (be bl : Int) : Int × Int :=
  rs.foldl
    (fun acc r => if (r.2 : Int) > acc.2 then (((r.1 + r.2 - 1 : Nat) : Int), (r.2 : Int)) else acc)
    (be, bl)

/-- C5 counterexample: `tested = {0, 5, 8, 9, 10}`, `best_success = 2`,
`lowest_failure = 9`.  The interval holds two maximal untested runs of equal
length 2, `[3, 4]` and `[6, 7]`; the claimed tie-break (the later run wins)
gives `7 - 1 = 6`, but the code's strictly-greater comparison keeps the
earlier run and returns `4 - 1 = 3`. -/
theorem locate_next_mid_point_ties_earlier :
    locate_next_mid_point (fun i => [0, 5, 8, 9, 10].contains i) 10 2 9 = some 3 ∧
      (fun i => [0, 5, 8, 9, 10].contains i) 3 = false ∧
      (fun i => [0, 5, 8, 9, 10].contains i) 4 = false ∧
      (fun i => [0, 5, 8, 9, 10].contains i) 5 = true ∧
      (fun i => [0, 5, 8, 9, 10].contains i) 6 = false ∧
      (fun i => [0, 5, 8, 9, 10].contains i) 7 = false ∧
      (fun i => [0, 5, 8, 9, 10].contains i) 8 = true ∧
      ¬ (some (3 : Int) = some (6 : Int)) := by decide

theorem locate_scan_eq_pick (tested : Nat → Bool) :
    ∀ steps start (be bl : Int) (cur : Nat), 0 ≤ bl → cur ≤ start →
      ((locate_scan tested start steps (be, bl, (cur : Int))).1,
          (locate_scan tested start steps (be, bl, (cur : Int))).2.1) =
        pick_first_longest (gap_runs tested start steps cur) be bl := by
  intro steps
  induction steps with
  | zero =>
    intro start be bl cur h0 hc
    simp [locate_scan, gap_runs, pick_first_longest]
  | succ steps ih =>
    intro start be bl cur h0 hc
    by_cases ht : tested start
    · by_cases hcur : 0 < cur
      · rw [locate_scan, gap_runs]
        simp only [ht, if_true, hcur, if_true, List.singleton_append]
        rw [pick_first_longest, List.foldl_cons]
        by_cases hgt : (cur : Int) > bl
        · simp only [hgt, if_true]
          have hcast : ((start - cur + cur - 1 : Nat) : Int) = (start : Int) - 1 := by
            omega
          rw [hcast]
          have h2 := ih (start + 1) ((start : Int) - 1) (cur : Int) 0
            (by positivity) (by omega)
          simp only [Nat.cast_zero] at h2
          rw [h2]
          rfl
        · simp only [hgt, if_false]
          have h2 := ih (start + 1) be bl 0 h0 (by omega)
          simp only [Nat.cast_zero] at h2
          rw [h2]
          rfl
      · have hcz : cur = 0 := Nat.eq_zero_of_not_pos hcur
        subst hcz
        rw [locate_scan, gap_runs]
        simp only [ht, if_true, hcur, if_false, List.nil_append, Nat.cast_zero]
        have hgt : ¬ ((0 : Int) > bl) := by omega
        simp only [hgt, if_false]
        have h2 := ih (start + 1) be bl 0 h0 (by omega)
        simp only [Nat.cast_zero] at h2
        exact h2
    · rw [locate_scan, gap_runs]
      simp only [ht, if_false]
      have h2 := ih (start + 1) be bl (cur + 1) h0 (by omega)
      have hcast : ((cur + 1 : Nat) : Int) = (cur : Int) + 1 := by push_cast; ring
      rw [hcast] at h2
      exact h2

theorem gap_runs_eq_tested_pos (tested : Nat → Bool) (start steps cur : Nat)
    (ht : tested start = true) (hcur : 0 < cur) :
    gap_runs tested start (steps + 1) cur =
      (start - cur, cur) :: gap_runs tested (start + 1) steps 0 := by
  rw [gap_runs, ht]
  simp [hcur]

theorem gap_runs_eq_tested_zero (tested : Nat → Bool) (start steps : Nat)
    (ht : tested start = true) :
    gap_runs tested start (steps + 1) 0 = gap_runs tested (start + 1) steps 0 := by
  rw [gap_runs, ht]
  simp

theorem gap_runs_eq_untested (tested : Nat → Bool) (start steps cur : Nat)
    (ht : tested start = false) :
    gap_runs tested start (steps + 1) cur = gap_runs tested (start + 1) steps (cur + 1) := by
  rw [gap_runs, ht]
  simp

theorem gap_runs_mem (tested : Nat → Bool) :
    ∀ steps start cur, cur ≤ start →
      (∀ i : Nat, start - cur ≤ i → i < start → tested i = false) →
      ∀ s l : Nat,
        ((s, l) ∈ gap_runs tested start steps cur ↔
          (1 ≤ l ∧ start - cur ≤ s ∧ s + l < start + steps ∧ tested (s + l) = true ∧
            (∀ i : Nat, s ≤ i → i < s + l → tested i = false) ∧
            (s = start - cur ∨ tested (s - 1) = true))) := by
  intro steps
  induction steps with
  | zero =>
    intro start cur hc hpend s l
    simp only [gap_runs, List.not_mem_nil, false_iff]
    rintro ⟨h1, h2, h3, h4, -, -⟩
    have := hpend (s + l) (by omega) (by omega)
    rw [this] at h4
    exact absurd h4 (by simp)
  | succ steps ih =>
    intro start cur hc hpend s l
    have hpend2 : ∀ i : Nat, start + 1 - 0 ≤ i → i < start + 1 → tested i = false := by
      intro i hi1 hi2; omega
    cases ht : tested start with
    | true =>
      have hrec := ih (start + 1) 0 (by omega) hpend2 s l
      rcases Nat.eq_zero_or_pos cur with hcz | hcur
      · subst hcz
        rw [gap_runs_eq_tested_zero tested start steps ht, hrec]
        constructor
        · rintro ⟨h1, h2, h3, h4, h5, h6⟩
          refine ⟨h1, by omega, by omega, h4, h5, ?_⟩
          rcases h6 with h6 | h6
          · right
            have he : s - 1 = start := by omega
            rw [he]; exact ht
          · exact Or.inr h6
        · rintro ⟨h1, h2, h3, h4, h5, h6⟩
          have hs : start + 1 ≤ s := by
            rcases Nat.lt_or_ge s (start + 1) with hlt | hge
            · exfalso
              have hseq : s = start := by omega
              have h7 := h5 s (by omega) (by omega)
              rw [hseq, ht] at h7
              exact absurd h7 (by simp)
            · exact hge
          refine ⟨h1, hs, by omega, h4, h5, ?_⟩
          rcases h6 with h6 | h6
          · omega
          · exact Or.inr h6
      · rw [gap_runs_eq_tested_pos tested start steps cur ht hcur, List.mem_cons, hrec]
        constructor
        · rintro (hh | ⟨h1, h2, h3, h4, h5, h6⟩)
          · have hs : s = start - cur := (Prod.mk.injEq .. ▸ hh).1
            have hl : l = cur := (Prod.mk.injEq .. ▸ hh).2
            refine ⟨by omega, by omega, by omega, ?_, ?_, Or.inl hs⟩
            · have he : s + l = start := by omega
              rw [he]; exact ht
            · intro i hi1 hi2
              exact hpend i (by omega) (by omega)
          · refine ⟨h1, by omega, by omega, h4, h5, ?_⟩
            rcases h6 with h6 | h6
            · right
              have he : s - 1 = start := by omega
              rw [he]; exact ht
            · exact Or.inr h6
        · rintro ⟨h1, h2, h3, h4, h5, h6⟩
          by_cases hsle : s ≤ start
          · left
            have hsl : s + l ≤ start := by
              by_contra hgt
              have hmem := h5 start (by omega) (by omega)
              rw [hmem] at ht
              exact absurd ht (by simp)
            have hsleq : s + l = start := by
              rcases Nat.lt_or_ge (s + l) start with hlt | hge
              · have h7 := hpend (s + l) (by omega) hlt
                rw [h7] at h4
                exact absurd h4 (by simp)
              · omega
            have hs : s = start - cur := by
              rcases h6 with h6 | h6
              · exact h6
              · by_contra hne
                have h7 := hpend (s - 1) (by omega) (by omega)
                rw [h7] at h6
                exact absurd h6 (by simp)
            rw [hs]
            have hl : l = cur := by omega
            rw [hl]
          · right
            refine ⟨h1, by omega, by omega, h4, h5, ?_⟩
            rcases h6 with h6 | h6
            · omega
            · exact Or.inr h6
    | false =>
      have hpend3 : ∀ i : Nat, start + 1 - (cur + 1) ≤ i → i < start + 1 → tested i = false := by
        intro i hi1 hi2
        rcases Nat.lt_or_ge i start with hlt | hge
        · exact hpend i (by omega) hlt
        · have he : i = start := by omega
          rw [he]; exact ht
      have hrec := ih (start + 1) (cur + 1) (by omega) hpend3 s l
      rw [gap_runs_eq_untested tested start steps cur ht, hrec]
      constructor
      · rintro ⟨h1, h2, h3, h4, h5, h6⟩
        refine ⟨h1, by omega, by omega, h4, h5, ?_⟩
        rcases h6 with h6 | h6
        · left; omega
        · exact Or.inr h6
      · rintro ⟨h1, h2, h3, h4, h5, h6⟩
        refine ⟨h1, by omega, by omega, h4, h5, ?_⟩
        rcases h6 with h6 | h6
        · left; omega
        · exact Or.inr h6

theorem gap_runs_lb (tested : Nat → Bool) :
    ∀ steps start cur s l, (s, l) ∈ gap_runs tested start steps cur → start - cur ≤ s := by
  intro steps
  induction steps with
  | zero => intro start cur s l h; simp [gap_runs] at h
  | succ steps ih =>
    intro start cur s l h
    cases ht : tested start with
    | true =>
      rcases Nat.eq_zero_or_pos cur with hcz | hcur
      · subst hcz
        rw [gap_runs_eq_tested_zero tested start steps ht] at h
        have := ih (start + 1) 0 s l h
        omega
      · rw [gap_runs_eq_tested_pos tested start steps cur ht hcur, List.mem_cons] at h
        rcases h with h | h
        · have hs : s = start - cur := (Prod.mk.injEq .. ▸ h).1
          omega
        · have := ih (start + 1) 0 s l h
          omega
    | false =>
      rw [gap_runs_eq_untested tested start steps cur ht] at h
      have := ih (start + 1) (cur + 1) s l h
      omega

theorem gap_runs_sorted (tested : Nat → Bool) :
    ∀ steps start cur, cur ≤ start →
      (gap_runs tested start steps cur).Pairwise (fun a b => a.1 < b.1) := by
  intro steps
  induction steps with
  | zero => intro start cur hc; simp [gap_runs]
  | succ steps ih =>
    intro start cur hc
    cases ht : tested start with
    | true =>
      rcases Nat.eq_zero_or_pos cur with hcz | hcur
      · subst hcz
        rw [gap_runs_eq_tested_zero tested start steps ht]
        exact ih (start + 1) 0 (by omega)
      · rw [gap_runs_eq_tested_pos tested start steps cur ht hcur]
        refine List.Pairwise.cons ?_ (ih (start + 1) 0 (by omega))
        intro r hr
        have := gap_runs_lb tested steps (start + 1) 0 r.1 r.2 (by simpa using hr)
        omega
    | false =>
      rw [gap_runs_eq_untested tested start steps cur ht]
      exact ih (start + 1) (cur + 1) (by omega)

theorem pick_first_longest_spec :
    ∀ (rs : List (Nat × Nat)) (be bl : Int),
      rs.Pairwise (fun a b => a.1 < b.1) →
      ((∀ r ∈ rs, (r.2 : Int) ≤ bl) → pick_first_longest rs be bl = (be, bl)) ∧
      ((∃ r ∈ rs, bl < (r.2 : Int)) → ∃ r ∈ rs,
        pick_first_longest rs be bl = (((r.1 + r.2 - 1 : Nat) : Int), (r.2 : Int)) ∧
        (∀ r2 ∈ rs, r2.2 ≤ r.2) ∧ (∀ r2 ∈ rs, r2.2 = r.2 → r.1 ≤ r2.1)) := by
  intro rs
  induction rs with
  | nil =>
    intro be bl hsort
    refine ⟨fun _ => rfl, ?_⟩
    rintro ⟨r, hr, -⟩
    exact absurd hr (by simp)
  | cons r rest ih =>
    intro be bl hsort
    have hsort2 : rest.Pairwise (fun a b => a.1 < b.1) := (List.pairwise_cons.mp hsort).2
    have hhead : ∀ r2 ∈ rest, r.1 < r2.1 := (List.pairwise_cons.mp hsort).1
    by_cases hgt : bl < (r.2 : Int)
    · have hstep : pick_first_longest (r :: rest) be bl =
          pick_first_longest rest (((r.1 + r.2 - 1 : Nat) : Int)) ((r.2 : Int)) := by
        rw [pick_first_longest, List.foldl_cons]
        simp only [gt_iff_lt, hgt, if_true]
        rfl
      constructor
      · intro hall
        have := hall r (by simp)
        omega
      · intro hex
        by_cases hrest : ∀ r2 ∈ rest, (r2.2 : Int) ≤ (r.2 : Int)
        · have h1 := (ih (((r.1 + r.2 - 1 : Nat) : Int)) ((r.2 : Int)) hsort2).1 hrest
          refine ⟨r, by simp, by rw [hstep, h1], ?_, ?_⟩
          · intro r2 hr2
            rcases List.mem_cons.mp hr2 with h | h
            · rw [h]
            · have := hrest r2 h
              exact_mod_cast this
          · intro r2 hr2 heq
            rcases List.mem_cons.mp hr2 with h | h
            · rw [h]
            · exact Nat.le_of_lt (hhead r2 h)
        · push_neg at hrest
          obtain ⟨r2, hr2mem, hr2gt⟩ := hrest
          have h2 := (ih (((r.1 + r.2 - 1 : Nat) : Int)) ((r.2 : Int)) hsort2).2
            ⟨r2, hr2mem, hr2gt⟩
          obtain ⟨rb, hrbmem, hrbeq, hrbmax, hrbtie⟩ := h2
          have hrb2 : r.2 < rb.2 := by
            have := hrbmax r2 hr2mem
            have h3 : (r.2 : Int) < (r2.2 : Int) := hr2gt
            have h4 : (r.2 : Nat) < r2.2 := by exact_mod_cast h3
            omega
          refine ⟨rb, List.mem_cons_of_mem _ hrbmem, by rw [hstep, hrbeq], ?_, ?_⟩
          · intro r3 hr3
            rcases List.mem_cons.mp hr3 with h | h
            · rw [h]; omega
            · exact hrbmax r3 h
          · intro r3 hr3 heq
            rcases List.mem_cons.mp hr3 with h | h
            · exfalso
              rw [h] at heq
              omega
            · exact hrbtie r3 h heq
    · have hstep : pick_first_longest (r :: rest) be bl =
          pick_first_longest rest be bl := by
        rw [pick_first_longest, List.foldl_cons]
        simp only [gt_iff_lt, hgt, if_false]
        rfl
      constructor
      · intro hall
        rw [hstep]
        exact (ih be bl hsort2).1 (fun r2 hr2 => hall r2 (List.mem_cons_of_mem _ hr2))
      · rintro ⟨r2, hr2mem, hr2gt⟩
        rcases List.mem_cons.mp hr2mem with h | h
        · exfalso
          rw [h] at hr2gt
          omega
        · obtain ⟨rb, hrbmem, hrbeq, hrbmax, hrbtie⟩ := (ih be bl hsort2).2 ⟨r2, h, hr2gt⟩
          have hrb2 : (bl : Int) < (rb.2 : Int) := by
            have := hrbmax r2 h
            have h4 : (r2.2 : Nat) ≤ rb.2 := this
            have h5 : ((r2.2 : Nat) : Int) ≤ ((rb.2 : Nat) : Int) := by exact_mod_cast h4
            omega
          refine ⟨rb, List.mem_cons_of_mem _ hrbmem, by rw [hstep, hrbeq], ?_, ?_⟩
          · intro r3 hr3
            rcases List.mem_cons.mp hr3 with h3 | h3
            · rw [h3]
              have : (r.2 : Int) ≤ bl := by omega
              have h6 : ((r.2 : Nat) : Int) < ((rb.2 : Nat) : Int) := by omega
              exact Nat.le_of_lt (by exact_mod_cast h6)
            · exact hrbmax r3 h3
          · intro r3 hr3 heq
            rcases List.mem_cons.mp hr3 with h3 | h3
            · exfalso
              rw [h3] at heq
              have h6 : ((r.2 : Nat) : Int) < ((rb.2 : Nat) : Int) := by omega
              omega
            · exact hrbtie r3 h3 heq

theorem untested_run_extend (tested : Nat → Bool) (start0 lfn : Nat)
    (h0 : tested 0 = true) (hlf : tested lfn = true)
    (i : Nat) (hi1 : start0 ≤ i) (hi2 : i < lfn) (hit : tested i = false) :
    ∃ s t : Nat, s ≤ i ∧ i < t ∧ t ≤ lfn ∧ start0 ≤ s ∧
      (∀ j, s ≤ j → j < t → tested j = false) ∧ tested t = true ∧
      (s = start0 ∨ tested (s - 1) = true) := by
  have hi0 : 1 ≤ i ∨ i = 0 := by omega
  have hine : i ≠ 0 := by
    intro he
    rw [he, h0] at hit
    exact absurd hit (by simp)
  have hi1le : 1 ≤ i := by omega
  -- right extension: least tested index above i
  have hexR : ∃ k, tested (i + 1 + k) = true := by
    refine ⟨lfn - i - 1, ?_⟩
    have he : i + 1 + (lfn - i - 1) = lfn := by omega
    rw [he]; exact hlf
  set kR := Nat.find hexR with hkR
  have htR : tested (i + 1 + kR) = true := Nat.find_spec hexR
  have hminR : ∀ j, j < kR → tested (i + 1 + j) = false := by
    intro j hj
    have := Nat.find_min hexR hj
    exact Bool.not_eq_true _ ▸ (by simpa using this)
  have hkRle : kR ≤ lfn - i - 1 := by
    apply Nat.find_min'
    have he : i + 1 + (lfn - i - 1) = lfn := by omega
    rw [he]; exact hlf
  -- left extension: walk down from i until a tested index or start0
  have hexL : ∃ d, (i - (d + 1) < start0 ∨ tested (i - (d + 1)) = true) := by
    refine ⟨i, ?_⟩
    have he : i - (i + 1) = 0 := by omega
    rw [he]
    rcases Nat.eq_zero_or_pos start0 with hs0 | hs0
    · exact Or.inr h0
    · exact Or.inl hs0
  set dL := Nat.find hexL with hdL
  have htL : i - (dL + 1) < start0 ∨ tested (i - (dL + 1)) = true := Nat.find_spec hexL
  have hminL : ∀ d, d < dL → start0 ≤ i - (d + 1) ∧ tested (i - (d + 1)) = false := by
    intro d hd
    have h := Nat.find_min hexL hd
    push_neg at h
    exact ⟨h.1, Bool.not_eq_true _ ▸ (by simpa using h.2)⟩
  have hdLle : dL ≤ i := by
    apply Nat.find_min'
    have he : i - (i + 1) = 0 := by omega
    rw [he]
    rcases Nat.eq_zero_or_pos start0 with hs0 | hs0
    · exact Or.inr h0
    · exact Or.inl hs0
  have hstartle : start0 ≤ i - dL := by
    rcases Nat.eq_zero_or_pos dL with hz | hp
    · omega
    · have h := hminL (dL - 1) (by omega)
      have he : dL - 1 + 1 = dL := by omega
      rw [he] at h
      omega
  refine ⟨i - dL, i + 1 + kR, by omega, by omega, by omega, hstartle, ?_, htR, ?_⟩
  · -- everything in [i - dL, i + 1 + kR) is untested
    intro j hj1 hj2
    rcases Nat.lt_or_ge j i with hji | hji
    · have hd : i - j - 1 < dL := by omega
      have := (hminL (i - j - 1) hd).2
      have he : i - (i - j - 1 + 1) = j := by omega
      rw [he] at this
      exact this
    · rcases Nat.eq_or_lt_of_le hji with hje | hjgt
      · rw [← hje]; exact hit
      · have hd : j - i - 1 < kR := by omega
        have := hminR (j - i - 1) hd
        have he : i + 1 + (j - i - 1) = j := by omega
        rw [he] at this
        exact this
  · -- left-maximality
    rcases htL with h | h
    · left; omega
    · right
      have he : i - dL - 1 = i - (dL + 1) := by omega
      rw [he]
      exact h

/-- C5 (amended): in a coordinator state where midpoints 0, `M` and
`lowest_failure` are all marked tested and `-1 <= best_success <
lowest_failure <= M`, `locate_next_mid_point` returns `end - length/2` for
the longest maximal run of untested indices strictly between `best_success`
and `lowest_failure` — and when two maximal runs have equal length the
EARLIER (lower-index) run is chosen, because the scan replaces its best block
only on a strictly greater length; with no untested index it returns
`FAILED_TO_FIND` (-1). -/
theorem locate_next_mid_point_longest_gap
    (tested : Nat → Bool) (M : Nat) (best lf : Int)
    (h0 : tested 0 = true) (hM : tested M = true)
    (hbest : -1 ≤ best) (hlt : best < lf) (hlfM : lf ≤ (M : Int))
    (hlf : tested lf.toNat = true) :
    ((∃ i : Nat, best < (i : Int) ∧ (i : Int) < lf ∧ tested i = false) →
      ∃ s e : Nat, best < (s : Int) ∧ (e : Int) < lf ∧ s ≤ e ∧
        (∀ j : Nat, s ≤ j → j ≤ e → tested j = false) ∧
        ((s : Int) = best + 1 ∨ tested (s - 1) = true) ∧
        tested (e + 1) = true ∧
        (∀ s2 e2 : Nat, best < (s2 : Int) → (e2 : Int) < lf → s2 ≤ e2 →
          (∀ j : Nat, s2 ≤ j → j ≤ e2 → tested j = false) →
          (e2 - s2 < e - s ∨ (e2 - s2 = e - s ∧ s ≤ s2))) ∧
        locate_next_mid_point tested M best lf =
          some ((e : Int) - (((e - s + 1 : Nat) : Int)) / 2)) ∧
    ((∀ i : Nat, best < (i : Int) → (i : Int) < lf → tested i = true) →
      locate_next_mid_point tested M best lf = some (-1)) := by
  have hlf0 : 0 ≤ lf := by omega
  set b1 : Nat := (best + 1).toNat with hb1def
  have hb1 : (b1 : Int) = best + 1 := Int.toNat_of_nonneg (by omega)
  set lfn : Nat := lf.toNat with hlfndef
  have hlfn : (lfn : Int) = lf := Int.toNat_of_nonneg hlf0
  set steps : Nat := (lf + 1 - ((b1 : Nat) : Int)).toNat with hstepsdef
  have hstepsInt : (steps : Int) = lf + 1 - (b1 : Int) := by
    rw [hstepsdef]
    exact Int.toNat_of_nonneg (by omega)
  have hb1lfn : b1 + steps = lfn + 1 := by omega
  have hpend0 : ∀ i : Nat, b1 - 0 ≤ i → i < b1 → tested i = false := by
    intro i h1 h2; omega
  have hmem := gap_runs_mem tested steps b1 0 (Nat.zero_le _) hpend0
  have hsorted := gap_runs_sorted tested steps b1 0 (Nat.zero_le _)
  have hbridge := locate_scan_eq_pick tested steps b1 (-1) 0 0 (by omega) (Nat.zero_le _)
  simp only [Nat.cast_zero] at hbridge
  constructor
  · rintro ⟨i, hi1, hi2, hit⟩
    have hMne : M ≠ 0 := by omega
    have hloc : locate_next_mid_point tested M best lf =
        (match locate_scan tested b1 steps (-1, 0, 0) with
          | (best_end, best_length, _) =>
            if 0 ≤ best_end - best_length / 2 ∧
                tested (best_end - best_length / 2).toNat then none
            else some (best_end - best_length / 2)) := by
      rw [locate_next_mid_point, if_neg (by simp [h0]), if_neg hMne,
        if_neg (by simp [hM]), ← hb1def, ← hstepsdef]
    have hiN1 : b1 ≤ i := by omega
    have hiN2 : i < lfn := by omega
    obtain ⟨s, t, hsi, hit2, htlfn, hb1s, hrange, htt, hleft⟩ :=
      untested_run_extend tested b1 lfn h0 hlf i hiN1 hiN2 hit
    have hl1 : 1 ≤ t - s := by omega
    have hmemrun : (s, t - s) ∈ gap_runs tested b1 steps 0 := by
      rw [hmem s (t - s)]
      refine ⟨hl1, by omega, by omega, ?_, ?_, ?_⟩
      · have he : s + (t - s) = t := by omega
        rw [he]; exact htt
      · intro j hj1 hj2
        exact hrange j hj1 (by omega)
      · rcases hleft with h | h
        · left; omega
        · exact Or.inr h
    have hpick := (pick_first_longest_spec (gap_runs tested b1 steps 0) (-1) 0 hsorted).2
      ⟨(s, t - s), hmemrun, by exact_mod_cast hl1⟩
    obtain ⟨rb, hrbmem, hrbeq, hrbmax, hrbtie⟩ := hpick
    obtain ⟨sb, lb⟩ := rb
    have hrbprops := (hmem sb lb).mp hrbmem
    obtain ⟨hp1, hp2, hp3, hp4, hp5, hp6⟩ := hrbprops
    refine ⟨sb, sb + lb - 1, by omega, by omega, by omega, ?_, ?_, ?_, ?_, ?_⟩
    · intro j hj1 hj2
      exact hp5 j hj1 (by omega)
    · rcases hp6 with h | h
      · left; omega
      · exact Or.inr h
    · have he : sb + lb - 1 + 1 = sb + lb := by omega
      rw [he]; exact hp4
    · intro s2 e2 hs2 he2 hs2e2 hrange2
      have hs2b1 : b1 ≤ s2 := by omega
      have hs2lfn : s2 < lfn := by omega
      obtain ⟨s3, t3, hs3a, hs3b, hs3c, hs3d, hrange3, htt3, hleft3⟩ :=
        untested_run_extend tested b1 lfn h0 hlf s2 hs2b1 hs2lfn
          (hrange2 s2 (le_refl s2) hs2e2)
      have ht3e2 : e2 < t3 := by
        by_contra hcon
        have h := hrange2 t3 (by omega) (by omega)
        rw [h] at htt3
        exact absurd htt3 (by simp)
      have hmem3 : (s3, t3 - s3) ∈ gap_runs tested b1 steps 0 := by
        rw [hmem s3 (t3 - s3)]
        refine ⟨by omega, by omega, by omega, ?_, ?_, ?_⟩
        · have he : s3 + (t3 - s3) = t3 := by omega
          rw [he]; exact htt3
        · intro j hj1 hj2
          exact hrange3 j hj1 (by omega)
        · rcases hleft3 with h | h
          · left; omega
          · exact Or.inr h
      have hmax := hrbmax (s3, t3 - s3) hmem3
      have htie := hrbtie (s3, t3 - s3) hmem3
      simp only at hmax htie
      by_cases hcase : e2 - s2 + 1 < lb
      · left; omega
      · right
        have ht3s3 : t3 - s3 = lb := by omega
        have hsb3 := htie ht3s3
        constructor
        · omega
        · omega
    · rw [hloc]
      rcases hscan : locate_scan tested b1 steps (-1, 0, 0) with ⟨be, bl, cl⟩
      rw [hscan] at hbridge
      rw [hrbeq] at hbridge
      have hbe : be = ((sb + lb - 1 : Nat) : Int) := (Prod.mk.injEq .. ▸ hbridge).1
      have hbl : bl = ((lb : Nat) : Int) := (Prod.mk.injEq .. ▸ hbridge).2
      have hdiv : bl / 2 = ((lb / 2 : Nat) : Int) := by
        rw [hbl]
        exact_mod_cast (Int.natCast_div lb 2).symm
      change (if 0 ≤ be - bl / 2 ∧ tested (be - bl / 2).toNat then none
        else some (be - bl / 2)) = _
      have hmid1 : (sb : Int) ≤ be - bl / 2 := by
        rw [hbe, hdiv]
        have hdle : lb / 2 ≤ lb - 1 := by omega
        omega
      have hmid2 : be - bl / 2 ≤ ((sb + lb - 1 : Nat) : Int) := by
        rw [hbe, hdiv]
        omega
      have huntested : tested (be - bl / 2).toNat = false := by
        refine hp5 (be - bl / 2).toNat (by omega) (by omega)
      rw [if_neg]
      · have hbe2 : be = ((sb + lb - 1 : Nat) : Int) := hbe
        have hbl2 : bl / 2 = (((sb + lb - 1) - sb + 1 : Nat) : Int) / 2 := by
          rw [hdiv]
          have he : (sb + lb - 1) - sb + 1 = lb := by omega
          rw [he]
          exact_mod_cast Int.natCast_div lb 2
        rw [hbe2, hbl2]
      · rintro ⟨h1, h2⟩
        rw [huntested] at h2
        exact absurd h2 (by simp)
  · intro hall
    by_cases hM0 : M = 0
    · rw [locate_next_mid_point, if_neg (by simp [h0]), if_pos hM0]
    · have hloc : locate_next_mid_point tested M best lf =
          (match locate_scan tested b1 steps (-1, 0, 0) with
            | (best_end, best_length, _) =>
              if 0 ≤ best_end - best_length / 2 ∧
                  tested (best_end - best_length / 2).toNat then none
              else some (best_end - best_length / 2)) := by
        rw [locate_next_mid_point, if_neg (by simp [h0]), if_neg hM0,
          if_neg (by simp [hM]), ← hb1def, ← hstepsdef]
      have hnil : gap_runs tested b1 steps 0 = [] := by
        rw [List.eq_nil_iff_forall_not_mem]
        intro r hr
        obtain ⟨s, l⟩ := r
        rw [hmem s l] at hr
        obtain ⟨h1, h2, h3, h4, h5, h6⟩ := hr
        have hs := h5 s (le_refl s) (by omega)
        have htest := hall s (by omega) (by omega)
        rw [htest] at hs
        exact absurd hs (by simp)
      rw [hloc]
      rcases hscan : locate_scan tested b1 steps (-1, 0, 0) with ⟨be, bl, cl⟩
      rw [hscan, hnil] at hbridge
      have hpair : (be, bl) = ((-1 : Int), (0 : Int)) := hbridge
      have hbe : be = (-1 : Int) := (Prod.mk.injEq .. ▸ hpair).1
      have hbl : bl = (0 : Int) := (Prod.mk.injEq .. ▸ hpair).2
      change (if 0 ≤ be - bl / 2 ∧ tested (be - bl / 2).toNat then none
        else some (be - bl / 2)) = _
      rw [hbe, hbl]
      norm_num

/-- Concrete tested-midpoints state used by the C5 witness. -/
def tested_ex : Nat → Bool := fun i => [0, 5, 8, 9, 10].contains i

/-- Witness for C5 at the concrete state `tested = {0,5,8,9,10}`,
`best_success = 2`, `lowest_failure = 9`. -/
theorem locate_next_mid_point_longest_gap_witness :
    ((∃ i : Nat, (2 : Int) < (i : Int) ∧ (i : Int) < (9 : Int) ∧ tested_ex i = false) →
      ∃ s e : Nat, (2 : Int) < (s : Int) ∧ (e : Int) < (9 : Int) ∧ s ≤ e ∧
        (∀ j : Nat, s ≤ j → j ≤ e → tested_ex j = false) ∧
        ((s : Int) = (2 : Int) + 1 ∨ tested_ex (s - 1) = true) ∧
        tested_ex (e + 1) = true ∧
        (∀ s2 e2 : Nat, (2 : Int) < (s2 : Int) → (e2 : Int) < (9 : Int) → s2 ≤ e2 →
          (∀ j : Nat, s2 ≤ j → j ≤ e2 → tested_ex j = false) →
          (e2 - s2 < e - s ∨ (e2 - s2 = e - s ∧ s ≤ s2))) ∧
        locate_next_mid_point tested_ex 10 2 9 =
          some ((e : Int) - (((e - s + 1 : Nat) : Int)) / 2)) ∧
    ((∀ i : Nat, (2 : Int) < (i : Int) → (i : Int) < (9 : Int) → tested_ex i = true) →
      locate_next_mid_point tested_ex 10 2 9 = some (-1)) :=
  locate_next_mid_point_longest_gap tested_ex 10 2 9 (by decide) (by decide)
    (by decide) (by decide) (by decide) (by decide)
